import Mathlib

/-!
Verification development for the Cats-Team/tgbot repository (src/bot.py).

The Python source is shallowly embedded: Python `str` values are modelled as
`List Char` (sequences of Unicode code points), Python dictionaries (which
preserve insertion order) are modelled as association lists with
update-in-place-or-append assignment, raised exceptions are modelled with
`Except`, and the mutable global state of the bot is threaded explicitly.
-/

set_option maxRecDepth 4000

namespace Bot

/-! ## Python string primitives -/

/-- Characters treated as whitespace by Python's `str.strip` and by the regex
class `\s` on ASCII input (space, tab, newline, carriage return, vertical tab,
form feed). -/
def pyIsSpaceChar (c : Char) : Bool :=
  c = ' ' || c = '\t' || c = '\n' || c = '\r' || c = '\x0b' || c = '\x0c'

/-- Python `str.strip()`: remove leading and trailing whitespace. -/
def pyStrip (s : List Char) : List Char :=
  ((s.dropWhile pyIsSpaceChar).reverse.dropWhile pyIsSpaceChar).reverse

/-- Python `str.lower()`, restricted to the ASCII case mapping. -/
def pyLower (s : List Char) : List Char :=
  s.map Char.toLower

/-- Python `str.split(sep)` for a single-character separator `sep`
(used for `file_path.split('/')` in `download_and_parse_archive`). -/
def pySplitChar (sep : Char) : List Char → List Char → List (List Char)
  | [], cur => [cur.reverse]
  | c :: rest, cur =>
    if c = sep then cur.reverse :: pySplitChar sep rest []
    else pySplitChar sep rest (c :: cur)

/-- Python `str.split(sep)` for a two-character separator `a · b`
(used for `message.split('\n\n')` in `split_message`).  Occurrences are found
left to right and do not overlap, exactly as in Python. -/
def pySplit2 (a b : Char) : List Char → List Char → List (List Char)
  | [], cur => [cur.reverse]
  | [c], cur => [(c :: cur).reverse]
  | c :: d :: rest, cur =>
    if c = a ∧ d = b then cur.reverse :: pySplit2 a b rest []
    else pySplit2 a b (d :: rest) (c :: cur)

/-- Characters recognized as line boundaries by Python `str.splitlines`. -/
def pyIsLineBreak (c : Char) : Bool :=
  c = '\n' || c = '\r' || c = '\x0b' || c = '\x0c' ||
  c = '\x1c' || c = '\x1d' || c = '\x1e' || c = '\x85' ||
  c = '\u2028' || c = '\u2029'

/-- Python `str.splitlines()` (with `keepends=False`): the string is cut at
every line boundary, `"\r\n"` counts as a single boundary, and a trailing
line boundary does not produce a final empty line. -/
def pySplitlinesGo : List Char → List Char → List (List Char)
  | [], cur => if cur.isEmpty then [] else [cur.reverse]
  | [c], cur =>
    if pyIsLineBreak c then [cur.reverse] else [(c :: cur).reverse]
  | c :: d :: rest, cur =>
    if c = '\r' ∧ d = '\n' then cur.reverse :: pySplitlinesGo rest []
    else if pyIsLineBreak c then cur.reverse :: pySplitlinesGo (d :: rest) []
    else pySplitlinesGo (d :: rest) (c :: cur)

/-- Python `str.splitlines()`. -/
def pySplitlines (s : List Char) : List (List Char) :=
  pySplitlinesGo s []

/-- Python substring membership `needle in hay` on strings. -/
def listContains (needle : List Char) : List Char → Bool
  | [] => needle.isEmpty
  | c :: rest => needle.isPrefixOf (c :: rest) || listContains needle rest

/-- Abbreviation for converting a Lean string literal to the `List Char`
representation of Python strings used throughout this development. -/
def toL (s : String) : List Char := s.toList

/-! ## Python dictionaries as insertion-ordered association lists -/

/-- A Python dict, modelled as an association list in insertion order. -/
abbrev Dict (β : Type) : Type := List (List Char × β)

/-- Python `d.get(k, dflt)`: the value at the first (only) entry with key `k`,
or the default. -/
def dictGet {β : Type} : Dict β → List Char → β → β
  | [], _, dflt => dflt
  | (k, v) :: rest, key, dflt => if k = key then v else dictGet rest key dflt

/-- Python `d[k] = v`: overwrite in place if the key is present (keeping its
position), otherwise append the new entry at the end. -/
def dictInsert {β : Type} (key : List Char) (v : β) : Dict β → Dict β
  | [] => [(key, v)]
  | (k, w) :: rest =>
    if k = key then (key, v) :: rest else (k, w) :: dictInsert key v rest

/-- Python `if k1 not in d: d[k1] = {}` followed by `d[k1][k2] = v` on a dict
of dicts. -/
def nestedInsert {β : Type} (k1 k2 : List Char) (v : β) :
    Dict (Dict β) → Dict (Dict β)
  | [] => [(k1, [(k2, v)])]
  | (k, inner) :: rest =>
    if k = k1 then (k, dictInsert k2 v inner) :: rest
    else (k, inner) :: nestedInsert k1 k2 v rest

/-- Python `k in d`. -/
def hasKey {β : Type} (d : Dict β) (k : List Char) : Bool :=
  d.any (fun p => p.1 = k)

/-- The keys of a dict, in insertion order. -/
def dictKeys {β : Type} (d : Dict β) : List (List Char) :=
  d.map Prod.fst

/-! ## Constants of bot.py -/

/-- bot.py line 53: maximum number of fetch attempts. -/
def MAX_RETRIES : Nat := 5

/-- bot.py line 55: seconds slept between fetch attempts. -/
def RETRY_INTERVAL : Nat := 5

/-- bot.py line 58: maximum length of one outgoing message. -/
def MAX_MESSAGE_LENGTH : Nat := 4096

/-- bot.py line 60: maximum number of outgoing messages per response. -/
def MAX_MESSAGES : Nat := 3

/-- bot.py line 50: `VALID_CATEGORIES = ['content', 'dns', 'all']`. -/
def VALID_CATEGORIES : List (List Char) :=
  [toL "content", toL "dns", toL "all"]

/-! ## Pagination: `split_message` (bot.py lines 194-219) -/

/-- The fixed truncation notice appended by `split_message` (bot.py line 209),
with `MAX_MESSAGES = 3` interpolated. -/
def truncNotice : List Char :=
  toL "*注意：* 搜索结果过多，仅显示前 3 条消息。"

/-- The `for part in parts` loop of `split_message` together with the final
`if current_message and len(messages) < MAX_MESSAGES` append.  The first
argument is the remaining paragraph parts, then the current message being
accumulated, then the messages emitted so far. -/
def split_message_go : List (List Char) → List Char → List (List Char) → List (List Char)
  | [], current, messages =>
    if current ≠ [] ∧ messages.length < MAX_MESSAGES then messages ++ [current]
    else messages
  | part :: rest, current, messages =>
    if MAX_MESSAGE_LENGTH < current.length + part.length + 2 then
      if current ≠ [] then
        if MAX_MESSAGES ≤ (messages ++ [current]).length then
          (messages ++ [current]) ++ [truncNotice]
        else split_message_go rest part (messages ++ [current])
      else split_message_go rest part messages
    else
      if current ≠ [] then
        split_message_go rest (current ++ '\n' :: '\n' :: part) messages
      else split_message_go rest part messages

/-- bot.py `split_message(message)`: split a long message at blank-line
(`'\n\n'`) boundaries into at most `MAX_MESSAGES` parts, appending a
truncation notice when the input produces more parts than that. -/
def split_message (message : List Char) : List (List Char) :=
  split_message_go (pySplit2 '\n' '\n' message []) [] []

/-! ## Archive fetching: `download_archive` (bot.py lines 108-130)

The aiohttp request of one attempt is abstracted as a function from the
attempt index to its outcome: `Except.error ()` models the exception caught
by the `except` clause, `Except.ok data` models a successful
`response.read()`.  The result records the outcome of the whole call
(`Except.error ()` models the terminal `raise`) together with the number of
`asyncio.sleep(RETRY_INTERVAL)` waits performed. -/

/-- The `while retries < MAX_RETRIES` loop of `download_archive`, entered with
the current value of `retries`.  The fall-through `return b""` after the loop
is modelled by `(Except.ok [], 0)` (it is unreachable for `retries = 0` since
`MAX_RETRIES = 5 > 0`). -/
def download_archive_go (attempt : Nat → Except Unit (List Nat)) (retries : Nat) :
    Except Unit (List Nat) × Nat :=
  if retries < MAX_RETRIES then
    match attempt retries with
    | Except.ok data => (Except.ok data, 0)
    | Except.error _ =>
      if retries + 1 < MAX_RETRIES then
        let r := download_archive_go attempt (retries + 1)
        (r.1, r.2 + 1)
      else (Except.error (), 0)
  else (Except.ok [], 0)
termination_by MAX_RETRIES - retries

/-- bot.py `download_archive(session, url)`: up to `MAX_RETRIES` attempts with
an `asyncio.sleep(RETRY_INTERVAL)` between consecutive attempts. -/
def download_archive (attempt : Nat → Except Unit (List Nat)) :
    Except Unit (List Nat) × Nat :=
  download_archive_go attempt 0

/-! ## Archive parsing: the member loop of `download_and_parse_archive`
(bot.py lines 149-174) -/

/-- One entry of `tar.getmembers()`.  `data` is the result of
`tar.extractfile(member)` followed by `.read().decode('utf-8',
errors='ignore')`: `none` models `extractfile` returning `None`, and the
byte-level utf-8 decoding (which cannot fail with `errors='ignore'`) is
abstracted by storing the decoded text directly. -/
structure TarMember where
  name : List Char
  isfile : Bool
  data : Option (List Char)

/-- bot.py line 165: `re.match(r'^! url:\s*(\S+)', first_line, re.IGNORECASE)`,
returning the captured group.  The literal part `! url:` requires `!`, one
space, the letters `url` in either case and a colon; then `\s*` skips
whitespace and `(\S+)` captures a maximal non-empty run of non-whitespace. -/
def matchDirective : List Char → Option (List Char)
  | '!' :: ' ' :: u :: r :: l :: ':' :: rest =>
    if u.toLower = 'u' ∧ r.toLower = 'r' ∧ l.toLower = 'l' then
      let tok := (rest.dropWhile pyIsSpaceChar).takeWhile fun c => !pyIsSpaceChar c
      if tok = [] then none else some tok
    else none
  | _ => none

/-- The corpus `url_contents`: category tag → source URL → content. -/
abbrev Corpus : Type := Dict (Dict (List Char))

/-- The body of the `for member in members` loop of
`download_and_parse_archive` (bot.py lines 149-174), acting on the
accumulator `temp_url_contents`.  `filename = parts[-1]` is only used for
logging and is omitted. -/
def parseMember (temp : Corpus) (m : TarMember) : Corpus :=
  if m.isfile then
    let parts := pySplitChar '/' m.name []
    if 3 ≤ parts.length then
      let category := parts.getD 2 []
      match m.data with
      | none => temp
      | some fdata =>
        match pySplitlines fdata with
        | [] => temp
        | first :: restLines =>
          match matchDirective (pyStrip first) with
          | some url =>
            nestedInsert category url (List.intercalate ['\n'] restLines) temp
          | none => temp
    else temp
  else temp

/-- The whole member loop, starting from `temp_url_contents = {}`. -/
def parseMembers (members : List TarMember) : Corpus :=
  members.foldl parseMember []

/-- The category tag under which a tar member is stored by the member loop:
`some (parts[2])` when every guard of the loop body passes (regular file,
path with at least 3 `/`-separated segments, extractable data, at least one
line, first line matching the URL directive), `none` when the member is
skipped. -/
def memberCategory (m : TarMember) : Option (List Char) :=
  if m.isfile then
    let parts := pySplitChar '/' m.name []
    if 3 ≤ parts.length then
      match m.data with
      | none => none
      | some fdata =>
        match pySplitlines fdata with
        | [] => none
        | first :: _ =>
          match matchDirective (pyStrip first) with
          | some _ => some (parts.getD 2 [])
          | none => none
    else none
  else none

/-! ## Refresh cycles: `download_and_parse_archive` (bot.py lines 132-192)

The mutable globals `url_contents`, `last_update_time` and
`initial_load_time` form the state.  Opening the gzip/tar stream and listing
its members (`tarfile.open` + `tar.getmembers()`, which may raise
`tarfile.TarError`) is abstracted as a function `tarOpen` from the downloaded
bytes to either an error or the member list.  A raised exception is modelled
as `Except.error ()` in the first component; the state is returned unchanged
in that case, since the Python globals are only assigned on the success
path. -/

structure BotState where
  url_contents : Corpus
  last_update_time : Option Nat
  initial_load_time : Option Nat
deriving DecidableEq

/-- The state at process start (bot.py lines 47, 63, 64). -/
def initState : BotState :=
  { url_contents := [], last_update_time := none, initial_load_time := none }

/-- One call of `download_and_parse_archive` with fetch outcome `fetch` at
wall-clock time `now`. -/
def refresh (tarOpen : List Nat → Except Unit (List TarMember))
    (fetch : Except Unit (List Nat)) (now : Nat) (s : BotState) :
    Except Unit Unit × BotState :=
  match fetch with
  | Except.error _ => (Except.error (), s)
  | Except.ok archive_data =>
    if archive_data.isEmpty then (Except.error (), s)
    else
      match tarOpen archive_data with
      | Except.error _ => (Except.error (), s)
      | Except.ok members =>
        (Except.ok (),
         { url_contents := parseMembers members,
           last_update_time := some now,
           initial_load_time := some (s.initial_load_time.getD now) })

/-- One scheduled or manual refresh trigger: its fetch outcome and the
wall-clock time at which the cycle would publish. -/
structure RefreshEvent where
  fetch : Except Unit (List Nat)
  now : Nat

/-- Whether a refresh cycle runs to a successful publish. -/
def cycleOk (tarOpen : List Nat → Except Unit (List TarMember))
    (e : RefreshEvent) : Bool :=
  match e.fetch with
  | Except.error _ => false
  | Except.ok bs => !bs.isEmpty && (tarOpen bs).isOk

/-- A sequence of refresh cycles, each threading the global state. -/
def runRefreshes (tarOpen : List Nat → Except Unit (List TarMember))
    (es : List RefreshEvent) (s : BotState) : BotState :=
  es.foldl (fun s e => (refresh tarOpen e.fetch e.now s).2) s

/-! ## Search: the scan loops of `search` (bot.py lines 299-316) and
`regex_search` (bot.py lines 398-415) -/

/-- bot.py line 302 (and 401): `VALID_CATEGORIES[:-1] if category == 'all'
else [category]`. -/
def categoriesToSearch (category : List Char) : List (List Char) :=
  if category = toL "all" then VALID_CATEGORIES.dropLast else [category]

/-- The inner `for idx, line in enumerate(lines, start=1)` loop of `search`
(bot.py lines 308-312): collect `(idx, line.strip())` for every line whose
lowercased text contains the (already lowercased) keyword. -/
def matching_lines (keyword content : List Char) : List (Nat × List Char) :=
  (((pySplitlines content).enumFrom 1).filter
      fun p => listContains keyword (pyLower p.2)).map
    fun p => (p.1, pyStrip p.2)

/-- The `for url, content in url_contents.get(cat, {}).items()` loop shared by
`search` and `regex_search`, parameterized by the per-content matcher `f` and
acting on the `found_results` accumulator. -/
def scanUrlsLoop (f : List Char → List (Nat × List Char)) (cat : List Char) :
    List (List Char × List Char) → Dict (Dict (List (Nat × List Char))) →
    Dict (Dict (List (Nat × List Char)))
  | [], acc => acc
  | (url, content) :: rest, acc =>
    if content.isEmpty then scanUrlsLoop f cat rest acc
    else
      let ms := f content
      if ms.isEmpty then scanUrlsLoop f cat rest acc
      else scanUrlsLoop f cat rest (nestedInsert cat url ms acc)

/-- The result structure `found_results`: category → URL → matching lines. -/
abbrev SearchResult : Type := Dict (Dict (List (Nat × List Char)))

/-- The substring scan of the `/search` handler (bot.py lines 299-316).  The
keyword argument is the raw user keyword; the handler lowercases it when
extracting it from the command arguments (bot.py lines 287/290). -/
def search (url_contents : Corpus) (category rawKeyword : List Char) :
    SearchResult :=
  let keyword := pyLower rawKeyword
  (categoriesToSearch category).foldl
    (fun acc cat =>
      scanUrlsLoop (matching_lines keyword) cat (dictGet url_contents cat []) acc)
    []

/-- The inner line loop of `regex_search` (bot.py lines 407-411), with the
compiled regex abstracted as a line predicate. -/
def matching_lines_re (regex : List Char → Bool) (content : List Char) :
    List (Nat × List Char) :=
  (((pySplitlines content).enumFrom 1).filter fun p => regex p.2).map
    fun p => (p.1, pyStrip p.2)

/-- The scan portion of `regex_search` (bot.py lines 398-415). -/
def regex_scan (regex : List Char → Bool) (url_contents : Corpus)
    (category : List Char) : SearchResult :=
  (categoriesToSearch category).foldl
    (fun acc cat =>
      scanUrlsLoop (matching_lines_re regex) cat (dictGet url_contents cat []) acc)
    []

/-- The `/regex` handler from compilation onwards (bot.py lines 388-415):
`re.compile(pattern, re.IGNORECASE)` is abstracted as its outcome — either a
`re.error` message (reported back to the caller, bot.py lines 390-396) or a
compiled line predicate.  On error the handler replies and returns before any
corpus access. -/
def regex_search (compile : Except (List Char) (List Char → Bool))
    (url_contents : Corpus) (category : List Char) :
    Except (List Char) SearchResult :=
  match compile with
  | Except.error e => Except.error e
  | Except.ok regex => Except.ok (regex_scan regex url_contents category)

/-! ## Spec-side formulations, for comparison with the code -/

/-- Spec-side formulation of the directive pattern, following the spec's
words: first line matches `^!\s*url:\s*(\S+)` case-insensitively (leading
`!`, then arbitrary whitespace, literal `url:`, whitespace, then one
non-whitespace token, captured).  This differs from the code, which requires
exactly one space between `!` and `url:`. -/
def specDirectivePattern : List Char → Option (List Char)
  | '!' :: rest =>
    (match rest.dropWhile pyIsSpaceChar with
     | u :: r :: l :: ':' :: rest2 =>
       if u.toLower = 'u' ∧ r.toLower = 'r' ∧ l.toLower = 'l' then
         let tok := (rest2.dropWhile pyIsSpaceChar).takeWhile fun c => !pyIsSpaceChar c
         if tok = [] then none else some tok
       else none
     | _ => none)
  | _ => none

/-- Spec-side formulation of the matching lines of one content string: the
lines (1-based) whose case-folded text contains the case-folded keyword as a
contiguous substring, recorded as (line number, trimmed text). -/
def specMatchingLines (keyword content : List Char) : List (Nat × List Char) :=
  (((pySplitlines content).enumFrom 1).filter
      fun p => decide (pyLower keyword <:+: pyLower p.2)).map
    fun p => (p.1, pyStrip p.2)

/-- Spec-side formulation of substring search: for each selected category in
order, the URLs (in corpus order) whose content has at least one matching
line, each with exactly its matching lines; categories and URLs with no
matches contribute no entry. -/
def specSearch (url_contents : Corpus) (category rawKeyword : List Char) :
    SearchResult :=
  (categoriesToSearch category).filterMap fun cat =>
    let hits := (dictGet url_contents cat []).filterMap fun p =>
      let ms := specMatchingLines rawKeyword p.2
      if ms.isEmpty then none else some (p.1, ms)
    if hits.isEmpty then none else some (cat, hits)

/-- The per-category result of one `scanUrlsLoop` run, as a direct
comprehension: the URLs (in order) with non-empty content and at least one
matching line, each paired with its matching lines. -/
def urlHits (f : List Char → List (Nat × List Char))
    (urls : List (List Char × List Char)) : Dict (List (Nat × List Char)) :=
  urls.filterMap fun p =>
    if p.2.isEmpty then none
    else if (f p.2).isEmpty then none
    else some (p.1, f p.2)

/-- The regex semantics of bot.py's directive pattern `^! url:\s*(\S+)`
(with `re.IGNORECASE`): the line starts with `!`, exactly one space, the
letters `url` in either case and a colon, then a (possibly empty) whitespace
run, then the captured token — a non-empty run of non-whitespace characters,
maximal in the sense that whatever follows is empty or starts with
whitespace. -/
def DirectiveMatches (line tok : List Char) : Prop :=
  ∃ (u r l : Char) (ws trail : List Char),
    line = '!' :: ' ' :: u :: r :: l :: ':' :: (ws ++ tok ++ trail) ∧
    u.toLower = 'u' ∧ r.toLower = 'r' ∧ l.toLower = 'l' ∧
    (∀ c ∈ ws, pyIsSpaceChar c = true) ∧
    tok ≠ [] ∧ (∀ c ∈ tok, pyIsSpaceChar c = false) ∧
    ∀ c ∈ trail.head?, pyIsSpaceChar c = true

/-! ## Concrete demonstration inputs -/

/-- One 4095-character paragraph. -/
def partA : List Char := List.replicate 4095 'a'

/-- Four 4095-character paragraphs separated by blank lines: an input whose
pagination needs more than `MAX_MESSAGES` chunks. -/
def bigMsg : List Char :=
  partA ++ '\n' :: '\n' :: (partA ++ '\n' :: '\n' :: (partA ++ '\n' :: '\n' :: partA))

/-- A tar member whose 3rd path segment is the unrecognized category tag
`weird`, with a well-formed URL directive. -/
def weirdMember : TarMember :=
  { name := toL "./tmp/weird/a.txt"
    isfile := true
    data := some (toL "! url: http://w\nx") }

/-- An attempt function failing on attempts 0-3 and succeeding on attempt 4. -/
def attemptOk : Nat → Except Unit (List Nat) :=
  fun i => if i < 4 then Except.error () else Except.ok [7]

/-- An attempt function failing on every attempt. -/
def attemptFail : Nat → Except Unit (List Nat) :=
  fun _ => Except.error ()

/-- A tar opener that always fails, modelling `tarfile.TarError`. -/
def tarOpenFail : List Nat → Except Unit (List TarMember) :=
  fun _ => Except.error ()

/-- A tar opener that always succeeds with an empty member list. -/
def tarOpenEmpty : List Nat → Except Unit (List TarMember) :=
  fun _ => Except.ok []

/-- A successful refresh event at time 3. -/
def evA : RefreshEvent := { fetch := Except.ok [1], now := 3 }

/-- A failing refresh event at time 7. -/
def evB : RefreshEvent := { fetch := Except.error (), now := 7 }

/-- A one-category demonstration corpus. -/
def demoCorpus : Corpus :=
  [(toL "dns", [(toL "http://a", toL "Foo\nbar\n ofOo ")])]

/-! ## C1 and C10: pagination -/

theorem pySplit2_of_all_ne (a b : Char) :
    ∀ (xs : List Char), (∀ c ∈ xs, c ≠ a) → ∀ cur,
      pySplit2 a b xs cur = [cur.reverse ++ xs]
  | [], _, cur => by simp [pySplit2]
  | [c], _, cur => by simp [pySplit2]
  | c :: d :: rest, h, cur => by
    simp only [pySplit2]
    rw [if_neg (fun hcd => h c (by simp) hcd.1),
      pySplit2_of_all_ne a b (d :: rest)
        (fun x hx => h x (List.mem_cons_of_mem _ hx)) (c :: cur)]
    simp

theorem pySplit2_sep_split (a b : Char) :
    ∀ (xs : List Char), (∀ c ∈ xs, c ≠ a) → ∀ (t cur : List Char),
      pySplit2 a b (xs ++ a :: b :: t) cur =
        (cur.reverse ++ xs) :: pySplit2 a b t []
  | [], _, t, cur => by
    rw [List.nil_append]
    simp [pySplit2]
  | [c], h, t, cur => by
    have hca : c ≠ a := h c (by simp)
    rw [List.cons_append, List.nil_append]
    simp [pySplit2, hca]
  | c :: c' :: xs, h, t, cur => by
    have hca : c ≠ a := h c (by simp)
    rw [List.cons_append]
    simp only [pySplit2, List.append_eq]
    rw [if_neg (fun hcd => hca hcd.1), ← List.cons_append,
      pySplit2_sep_split a b (c' :: xs)
        (fun x hx => h x (List.mem_cons_of_mem _ hx)) t (c :: cur)]
    simp

theorem partA_not_nl : ∀ c ∈ partA, c ≠ '\n' := by
  intro c hc
  rw [partA, List.mem_replicate] at hc
  rw [hc.2]
  decide

theorem partA_length : partA.length = 4095 := by
  rw [partA, List.length_replicate]

theorem partA_ne_nil : partA ≠ [] := by
  intro h
  have := congrArg List.length h
  rw [partA_length] at this
  simp at this

theorem pySplit2_bigMsg :
    pySplit2 '\n' '\n' bigMsg [] = [partA, partA, partA, partA] := by
  rw [bigMsg,
    pySplit2_sep_split '\n' '\n' partA partA_not_nl _ [],
    pySplit2_sep_split '\n' '\n' partA partA_not_nl _ [],
    pySplit2_sep_split '\n' '\n' partA partA_not_nl _ [],
    pySplit2_of_all_ne '\n' '\n' partA partA_not_nl []]
  simp

theorem split_message_go_nil_current (part : List Char)
    (rest messages : List (List Char)) :
    split_message_go (part :: rest) [] messages =
      split_message_go rest part messages := by
  rw [split_message_go]
  split_ifs with h1 h2 h3 h4
  · exact absurd rfl h2
  · exact absurd rfl h2
  · rfl
  · exact absurd rfl h4
  · rfl

theorem split_message_go_overflow (part current : List Char)
    (rest messages : List (List Char)) (hcur : current ≠ [])
    (hover : MAX_MESSAGE_LENGTH < current.length + part.length + 2)
    (hlt : ¬ MAX_MESSAGES ≤ (messages ++ [current]).length) :
    split_message_go (part :: rest) current messages =
      split_message_go rest part (messages ++ [current]) := by
  rw [split_message_go, if_pos hover, if_pos hcur, if_neg hlt]

theorem split_message_go_trunc (part current : List Char)
    (rest messages : List (List Char)) (hcur : current ≠ [])
    (hover : MAX_MESSAGE_LENGTH < current.length + part.length + 2)
    (hge : MAX_MESSAGES ≤ (messages ++ [current]).length) :
    split_message_go (part :: rest) current messages =
      (messages ++ [current]) ++ [truncNotice] := by
  rw [split_message_go, if_pos hover, if_pos hcur, if_pos hge]

/-- C1 (counterexample): the claim says `split_message` always returns at most
`MAX_MESSAGES = 3` chunks.  On an input of four 4095-character paragraphs it
returns 4 messages — three content chunks followed by the truncation
notice. -/
theorem C1_counterexample :
    (split_message bigMsg).length = 4 ∧
      (split_message bigMsg).getLast? = some truncNotice := by
  have hover : ∀ ms : List (List Char),
      MAX_MESSAGE_LENGTH < partA.length + partA.length + 2 := by
    intro ms
    rw [partA_length]
    decide
  have h : split_message bigMsg = [partA, partA, partA, truncNotice] := by
    rw [split_message, pySplit2_bigMsg, split_message_go_nil_current,
      split_message_go_overflow _ _ _ _ partA_ne_nil (hover [])
        (by rw [List.nil_append, List.length_singleton]; decide),
      split_message_go_overflow _ _ _ _ partA_ne_nil (hover [])
        (by rw [List.length_append, List.length_singleton]; decide),
      split_message_go_trunc _ _ _ _ partA_ne_nil (hover [])
        (by rw [List.length_append, List.length_singleton]; decide)]
    rfl
  rw [h]
  exact ⟨rfl, rfl⟩

theorem split_message_go_bound (parts : List (List Char)) :
    ∀ (current : List Char) (messages : List (List Char)),
      messages.length < MAX_MESSAGES →
      (split_message_go parts current messages).length ≤ MAX_MESSAGES
        ∨ ((split_message_go parts current messages).length = MAX_MESSAGES + 1
            ∧ (split_message_go parts current messages).getLast? = some truncNotice) := by
  induction parts with
  | nil =>
    intro current messages hlen
    rw [split_message_go]
    split_ifs with h
    · left
      rw [List.length_append, List.length_singleton]
      exact hlen
    · exact Or.inl (Nat.le_of_lt hlen)
  | cons part rest ih =>
    intro current messages hlen
    rw [split_message_go]
    split_ifs with h1 h2 h3 h4
    · right
      have hm : messages.length = 2 := by
        rw [List.length_append, List.length_singleton] at h3
        rw [MAX_MESSAGES] at h3 hlen
        omega
      constructor
      · simp [List.length_append, hm, MAX_MESSAGES]
      · exact List.getLast?_concat _
    · refine ih part (messages ++ [current]) ?_
      rw [List.length_append, List.length_singleton]
      rw [List.length_append, List.length_singleton] at h3
      omega
    · exact ih part messages hlen
    · exact ih (current ++ '\n' :: '\n' :: part) messages hlen
    · exact ih part messages hlen

/-- C1 (amended): for every input, `split_message` returns either at most
`MAX_MESSAGES = 3` messages, or — when the input would need more than 3
chunks — exactly `MAX_MESSAGES + 1 = 4` messages, the last of which is the
fixed truncation notice.  (The claim's bound of 3 total is wrong: the notice
is appended as a 4th message, as `C1_counterexample` shows.) -/
theorem C1_pagination_bound (message : List Char) :
    (split_message message).length ≤ MAX_MESSAGES
      ∨ ((split_message message).length = MAX_MESSAGES + 1
          ∧ (split_message message).getLast? = some truncNotice) :=
  split_message_go_bound _ [] [] (by decide)

theorem split_message_go_nonempty (parts : List (List Char)) :
    ∀ (current : List Char) (messages : List (List Char)),
      (∀ m ∈ messages, m ≠ []) →
      ∀ m ∈ split_message_go parts current messages, m ≠ [] := by
  induction parts with
  | nil =>
    intro current messages hmsg
    rw [split_message_go]
    split_ifs with h
    · intro m hm
      rcases List.mem_append.mp hm with h' | h'
      · exact hmsg m h'
      · rw [List.mem_singleton.mp h']
        exact h.1
    · exact hmsg
  | cons part rest ih =>
    intro current messages hmsg
    rw [split_message_go]
    split_ifs with h1 h2 h3 h4
    · intro m hm
      rcases List.mem_append.mp hm with h' | h'
      · rcases List.mem_append.mp h' with h'' | h''
        · exact hmsg m h''
        · rw [List.mem_singleton.mp h'']
          exact h2
      · rw [List.mem_singleton.mp h']
        decide
    · refine ih part (messages ++ [current]) ?_
      intro m hm
      rcases List.mem_append.mp hm with h' | h'
      · exact hmsg m h'
      · rw [List.mem_singleton.mp h']
        exact h2
    · exact ih part messages hmsg
    · exact ih (current ++ '\n' :: '\n' :: part) messages hmsg
    · exact ih part messages hmsg

/-- C10: every chunk `split_message` returns is a non-empty string, and the
empty input yields an empty sequence of chunks (not a sequence containing an
empty chunk). -/
theorem C10_chunks_nonempty :
    (∀ message : List Char,
        (split_message message).all (fun c => !c.isEmpty) = true)
      ∧ split_message [] = [] := by
  constructor
  · intro message
    rw [List.all_eq_true]
    intro x hx
    have hne := split_message_go_nonempty _ [] [] (by simp) x hx
    cases x with
    | nil => exact absurd rfl hne
    | cons y ys => rfl
  · decide

/-! ## Dictionary lemmas -/

theorem hasKey_iff_mem {β : Type} (d : Dict β) (k : List Char) :
    hasKey d k = true ↔ k ∈ dictKeys d := by
  induction d with
  | nil => simp [hasKey, dictKeys]
  | cons p rest ih =>
    rw [show hasKey (p :: rest) k = (decide (p.1 = k) || hasKey rest k) from rfl]
    simp only [Bool.or_eq_true, decide_eq_true_eq, ih, dictKeys, List.map_cons,
      List.mem_cons]
    constructor
    · rintro (h | h)
      · exact Or.inl h.symm
      · exact Or.inr h
    · rintro (h | h)
      · exact Or.inl h.symm
      · exact Or.inr h

theorem dictInsert_of_not_mem {β : Type} (k : List Char) (v : β) (d : Dict β)
    (h : k ∉ dictKeys d) : dictInsert k v d = d ++ [(k, v)] := by
  induction d with
  | nil => rfl
  | cons p rest ih =>
    obtain ⟨k', w⟩ := p
    simp only [dictKeys, List.map_cons, List.mem_cons, not_or] at h
    simp only [dictInsert, if_neg (fun hh : k' = k => h.1 hh.symm),
      List.cons_append, List.cons.injEq, true_and]
    exact ih h.2

theorem nestedInsert_of_not_mem {β : Type} (k1 k2 : List Char) (v : β)
    (d : Dict (Dict β)) (h : k1 ∉ dictKeys d) :
    nestedInsert k1 k2 v d = d ++ [(k1, [(k2, v)])] := by
  induction d with
  | nil => rfl
  | cons p rest ih =>
    obtain ⟨k', inner⟩ := p
    simp only [dictKeys, List.map_cons, List.mem_cons, not_or] at h
    simp only [nestedInsert, if_neg (fun hh : k' = k1 => h.1 hh.symm),
      List.cons_append, List.cons.injEq, true_and]
    exact ih h.2

theorem nestedInsert_append_last {β : Type} (k1 k2 : List Char) (v : β)
    (d : Dict (Dict β)) (inner : Dict β) (h : k1 ∉ dictKeys d) :
    nestedInsert k1 k2 v (d ++ [(k1, inner)]) =
      d ++ [(k1, dictInsert k2 v inner)] := by
  induction d with
  | nil => simp [nestedInsert]
  | cons p rest ih =>
    obtain ⟨k', inner'⟩ := p
    simp only [dictKeys, List.map_cons, List.mem_cons, not_or] at h
    simp only [List.cons_append, nestedInsert,
      if_neg (fun hh : k' = k1 => h.1 hh.symm), List.cons.injEq, true_and]
    exact ih h.2

theorem mem_dictKeys_nestedInsert {β : Type} (k1 k2 : List Char) (v : β)
    (d : Dict (Dict β)) (c : List Char) :
    c ∈ dictKeys (nestedInsert k1 k2 v d) ↔ c = k1 ∨ c ∈ dictKeys d := by
  simp only [dictKeys]
  induction d with
  | nil => simp [nestedInsert]
  | cons p rest ih =>
    obtain ⟨k', inner⟩ := p
    by_cases hk : k' = k1
    · subst hk
      rw [show nestedInsert k' k2 v ((k', inner) :: rest)
            = (k', dictInsert k2 v inner) :: rest by simp [nestedInsert]]
      simp only [List.map_cons, List.mem_cons]
      tauto
    · simp only [nestedInsert, if_neg hk, List.map_cons, List.mem_cons, ih]
      tauto

/-! ## C2: which category keys the member loop produces -/

theorem mem_keys_parseMember (temp : Corpus) (m : TarMember) (c : List Char) :
    c ∈ dictKeys (parseMember temp m) ↔
      c ∈ dictKeys temp ∨ memberCategory m = some c := by
  obtain ⟨name, isf, dat⟩ := m
  cases isf with
  | false => simp [parseMember, memberCategory]
  | true =>
    simp only [parseMember, memberCategory]
    by_cases h3 : 3 ≤ (pySplitChar '/' name []).length
    · simp only [if_pos h3, if_true]
      cases dat with
      | none => simp
      | some fdata =>
        rcases hl : pySplitlines fdata with _ | ⟨first, restLines⟩ <;>
          simp only [hl]
        · simp
        · rcases hd : matchDirective (pyStrip first) with _ | url <;>
            simp only [hd]
          · simp
          · rw [mem_dictKeys_nestedInsert]
            simp only [Option.some.injEq]
            constructor
            · rintro (rfl | h)
              · exact Or.inr rfl
              · exact Or.inl h
            · rintro (h | rfl)
              · exact Or.inr h
              · exact Or.inl rfl
    · simp [if_neg h3]

theorem mem_keys_parseMembers_foldl (ms : List TarMember) :
    ∀ (acc : Corpus) (c : List Char),
      c ∈ dictKeys (ms.foldl parseMember acc) ↔
        c ∈ dictKeys acc ∨ ∃ m ∈ ms, memberCategory m = some c := by
  induction ms with
  | nil => simp
  | cons m ms ih =>
    intro acc c
    rw [List.foldl_cons, ih, mem_keys_parseMember]
    simp only [List.mem_cons]
    constructor
    · rintro (⟨h | h⟩ | ⟨m', hm', h⟩)
      · exact Or.inl h
      · exact Or.inr ⟨m, Or.inl rfl, h⟩
      · exact Or.inr ⟨m', Or.inr hm', h⟩
    · rintro (h | ⟨m', (rfl | hm'), h⟩)
      · exact Or.inl (Or.inl h)
      · exact Or.inl (Or.inr h)
      · exact Or.inr ⟨m', hm', h⟩

/-- C2 (amended): the member loop performs no category filtering.  A category
tag appears as a key of the parsed corpus exactly when some member of the
archive passes all the guards of the loop body with that tag as the 3rd
segment of its path — whether or not the tag is in {content, dns}. -/
theorem C2_parse_keeps_every_category (members : List TarMember) (c : List Char) :
    hasKey (parseMembers members) c = true ↔
      ∃ m ∈ members, memberCategory m = some c := by
  rw [parseMembers, hasKey_iff_mem, mem_keys_parseMembers_foldl]
  simp [dictKeys]

/-! ## C3: the URL directive on the first line -/

theorem head?_dropWhile_not {α : Type} (p : α → Bool) (l : List α) :
    ∀ c ∈ (l.dropWhile p).head?, p c = false := by
  induction l with
  | nil => simp
  | cons x xs ih =>
    cases hpx : p x with
    | true => simpa [List.dropWhile_cons, hpx] using ih
    | false => simp [List.dropWhile_cons, hpx]

theorem dropWhile_append_of_all {α : Type} (p : α → Bool) (ws t : List α)
    (h : ∀ c ∈ ws, p c = true) :
    List.dropWhile p (ws ++ t) = List.dropWhile p t := by
  induction ws with
  | nil => rfl
  | cons x xs ih =>
    rw [List.cons_append, List.dropWhile_cons, if_pos (h x (List.mem_cons_self _ _))]
    exact ih fun c hc => h c (List.mem_cons_of_mem _ hc)

theorem takeWhile_append_of_all {α : Type} (q : α → Bool) (tok t : List α)
    (h : ∀ c ∈ tok, q c = true) (ht : ∀ c ∈ t.head?, q c = false) :
    List.takeWhile q (tok ++ t) = tok := by
  induction tok with
  | nil =>
    cases t with
    | nil => rfl
    | cons y ys => simp [List.takeWhile_cons, ht y (by simp)]
  | cons x xs ih =>
    rw [List.cons_append, List.takeWhile_cons, if_pos (h x (List.mem_cons_self _ _))]
    rw [ih fun c hc => h c (List.mem_cons_of_mem _ hc)]

theorem matchDirective_eq_some_iff (line tok : List Char) :
    matchDirective line = some tok ↔ DirectiveMatches line tok := by
  constructor
  · intro h
    rw [matchDirective.eq_def] at h
    split at h
    case h_1 u r l rest =>
      by_cases hc : u.toLower = 'u' ∧ r.toLower = 'r' ∧ l.toLower = 'l'
      case neg => rw [if_neg hc] at h; exact absurd h (by simp)
      rw [if_pos hc] at h
      obtain ⟨hu, hr, hl⟩ := hc
      have h' : (if ((rest.dropWhile pyIsSpaceChar).takeWhile
            fun c => !pyIsSpaceChar c) = [] then (none : Option (List Char))
          else some ((rest.dropWhile pyIsSpaceChar).takeWhile
            fun c => !pyIsSpaceChar c)) = some tok := h
      by_cases htok :
          ((rest.dropWhile pyIsSpaceChar).takeWhile fun c => !pyIsSpaceChar c) = []
      · rw [if_pos htok] at h'; exact absurd h' (by simp)
      · rw [if_neg htok] at h'
        obtain rfl : _ = tok := Option.some.inj h'
        refine ⟨u, r, l, rest.takeWhile pyIsSpaceChar,
          (rest.dropWhile pyIsSpaceChar).dropWhile (fun c => !pyIsSpaceChar c),
          ?_, hu, hr, hl, ?_, htok, ?_, ?_⟩
        · rw [List.append_assoc, List.takeWhile_append_dropWhile,
            List.takeWhile_append_dropWhile]
        · exact fun c hc => List.mem_takeWhile_imp hc
        · intro c hc
          have := List.mem_takeWhile_imp hc
          simpa using this
        · intro c hc
          have := head?_dropWhile_not (fun c => !pyIsSpaceChar c)
            (rest.dropWhile pyIsSpaceChar) c hc
          simpa using this
    case h_2 =>
      exact absurd h (by simp)
  · rintro ⟨u, r, l, ws, trail, rfl, hu, hr, hl, hws, htok, htokc, htrail⟩
    have hc : u.toLower = 'u' ∧ r.toLower = 'r' ∧ l.toLower = 'l' := ⟨hu, hr, hl⟩
    simp only [matchDirective]
    rw [if_pos hc, List.append_assoc,
      dropWhile_append_of_all pyIsSpaceChar ws _ hws]
    cases tok with
    | nil => exact absurd rfl htok
    | cons c0 tok' =>
      have hc0 : pyIsSpaceChar c0 = false := htokc c0 (List.mem_cons_self _ _)
      have hdrop : List.dropWhile pyIsSpaceChar ((c0 :: tok') ++ trail)
          = (c0 :: tok') ++ trail := by
        rw [List.cons_append, List.dropWhile_cons, hc0]
        simp
      have htake : List.takeWhile (fun c => !pyIsSpaceChar c) ((c0 :: tok') ++ trail)
          = c0 :: tok' := by
        refine takeWhile_append_of_all _ _ _ (fun c hcc => ?_) (fun c hcc => ?_)
        · show (!pyIsSpaceChar c) = true
          rw [htokc c hcc]; rfl
        · show (!pyIsSpaceChar c) = false
          rw [htrail c hcc]; rfl
      rw [hdrop, htake, if_neg (List.cons_ne_nil c0 tok')]

/-- C3 (counterexample): the claim says a file is included iff its first line
matches `^!\s*url:\s*(\S+)` case-insensitively.  The first line
`!url: http://x` matches that pattern (no whitespace between `!` and `url:`),
yet the code — whose pattern `^! url:\s*(\S+)` demands exactly one space —
skips the file: parsing an archive containing only that file yields an empty
corpus. -/
theorem C3_counterexample :
    specDirectivePattern (pyStrip (toL "!url: http://x")) = some (toL "http://x")
    ∧ parseMembers
        [{ name := toL "./tmp/content/a.txt"
           isfile := true
           data := some (toL "!url: http://x\nfoo") }] = [] := by
  decide

/-- C3 (amended): for a regular-file member whose path has at least 3
segments and whose data has at least one line, the entry is included iff the
*stripped* first line matches the code's directive pattern `^! url:\s*(\S+)`
case-insensitively (leading `!`, exactly one space, `url:`, optional
whitespace, then one non-whitespace token): on a match the captured token
becomes the key under the path's category tag and the remaining lines joined
by `'\n'` become the content; otherwise the member is skipped and the
accumulated corpus is unchanged (never a failure).  The last conjunct
characterizes the code's pattern exactly. -/
theorem C3_directive_inclusion (name fdata first : List Char)
    (restLines : List (List Char)) (temp : Corpus)
    (hl : pySplitlines fdata = first :: restLines)
    (h3 : 3 ≤ (pySplitChar '/' name []).length) :
    ((∀ url, matchDirective (pyStrip first) = some url →
        parseMember temp ⟨name, true, some fdata⟩ =
          nestedInsert ((pySplitChar '/' name []).getD 2 []) url
            (List.intercalate ['\n'] restLines) temp)
      ∧ (matchDirective (pyStrip first) = none →
          parseMember temp ⟨name, true, some fdata⟩ = temp))
    ∧ ∀ line tok, matchDirective line = some tok ↔ DirectiveMatches line tok := by
  refine ⟨⟨?_, ?_⟩, matchDirective_eq_some_iff⟩
  · intro url hurl
    simp only [parseMember, if_pos h3, if_true, hl, hurl]
  · intro hnone
    simp only [parseMember, if_pos h3, if_true, hl, hnone]

/-- C3 (witness): the amended statement applied to a concrete member whose
first line `! URL:  http://x` is accepted by the code's pattern. -/
theorem C3_directive_inclusion_witness :
    pySplitlines (toL "! URL:  http://x\na\nb") = [toL "! URL:  http://x", toL "a", toL "b"]
    ∧ 3 ≤ (pySplitChar '/' (toL "./tmp/dns/f.txt") []).length
    ∧ matchDirective (pyStrip (toL "! URL:  http://x")) = some (toL "http://x")
    ∧ parseMember [] ⟨toL "./tmp/dns/f.txt", true, some (toL "! URL:  http://x\na\nb")⟩ =
        nestedInsert ((pySplitChar '/' (toL "./tmp/dns/f.txt") []).getD 2 [])
          (toL "http://x") (List.intercalate ['\n'] [toL "a", toL "b"]) [] :=
  ⟨by decide, by decide, by decide,
    ((C3_directive_inclusion (toL "./tmp/dns/f.txt") (toL "! URL:  http://x\na\nb")
        (toL "! URL:  http://x") [toL "a", toL "b"] [] (by decide) (by decide)).1.1
      (toL "http://x") (by decide))⟩

/-- C2 (counterexample): the claim says an entry whose category tag is not in
{content, dns} is not retained under any key; but parsing an archive with one
file under category tag `weird` retains its entry under the key `weird`. -/
theorem C2_counterexample :
    hasKey (parseMembers [weirdMember]) (toL "weird") = true ∧
      dictGet (dictGet (parseMembers [weirdMember]) (toL "weird") [])
        (toL "http://w") [] = toL "x" := by
  decide

/-! ## C5: fetch retry counts -/

/-- C5: a fetch whose first 4 attempts fail and whose 5th attempt succeeds
returns the downloaded bytes after exactly 4 retry waits; a fetch whose 5
attempts all fail raises after exactly 4 retry waits (no wait after the final
attempt).  The second component of `download_archive` counts the
`asyncio.sleep(RETRY_INTERVAL)` calls performed. -/
theorem C5_fetch_retry (attempt : Nat → Except Unit (List Nat)) (d : List Nat) :
    ((∀ i, i < 4 → attempt i = Except.error ()) → attempt 4 = Except.ok d →
      download_archive attempt = (Except.ok d, 4))
    ∧ ((∀ i, i < 5 → attempt i = Except.error ()) →
      download_archive attempt = (Except.error (), 4)) := by
  constructor
  · intro hf hs
    have e0 := hf 0 (by decide)
    have e1 := hf 1 (by decide)
    have e2 := hf 2 (by decide)
    have e3 := hf 3 (by decide)
    simp [download_archive, download_archive_go, MAX_RETRIES, e0, e1, e2, e3, hs]
  · intro hf
    have e0 := hf 0 (by decide)
    have e1 := hf 1 (by decide)
    have e2 := hf 2 (by decide)
    have e3 := hf 3 (by decide)
    have e4 := hf 4 (by decide)
    simp [download_archive, download_archive_go, MAX_RETRIES, e0, e1, e2, e3, e4]

theorem C5_fetch_retry_witness :
    ((∀ i, i < 4 → attemptOk i = Except.error ())
      ∧ attemptOk 4 = Except.ok [7]
      ∧ download_archive attemptOk = (Except.ok [7], 4))
    ∧ ((∀ i, i < 5 → attemptFail i = Except.error ())
      ∧ download_archive attemptFail = (Except.error (), 4)) :=
  ⟨⟨fun i hi => by rw [attemptOk, if_pos hi], rfl,
    (C5_fetch_retry attemptOk [7]).1 (fun i hi => by rw [attemptOk, if_pos hi]) rfl⟩,
   ⟨fun i _ => rfl, (C5_fetch_retry attemptFail [7]).2 fun i _ => rfl⟩⟩

/-! ## C6 and C9: failed refresh cycles publish nothing -/

/-- C6: if the refresh cycle fails in fetching, or in opening/reading the
tar/gzip stream on the fetched bytes, the operation raises and the state
(the published corpus and both timestamps) is returned completely
unchanged. -/
theorem C6_failed_refresh_keeps_state
    (tarOpen : List Nat → Except Unit (List TarMember))
    (fetch : Except Unit (List Nat)) (now : Nat) (s : BotState)
    (h : fetch = Except.error ()
      ∨ ∃ bs, fetch = Except.ok bs ∧ tarOpen bs = Except.error ()) :
    refresh tarOpen fetch now s = (Except.error (), s) := by
  rcases h with h | ⟨bs, rfl, htar⟩
  · rw [h]
    rfl
  · show refresh tarOpen (Except.ok bs) now s = (Except.error (), s)
    simp only [refresh]
    by_cases hbs : bs.isEmpty
    · rw [if_pos hbs]
    · rw [if_neg hbs, htar]

theorem C6_failed_refresh_keeps_state_witness :
    ((Except.ok [1] : Except Unit (List Nat)) = Except.error ()
      ∨ ∃ bs, (Except.ok [1] : Except Unit (List Nat)) = Except.ok bs
          ∧ tarOpenFail bs = Except.error ())
    ∧ refresh tarOpenFail (Except.ok [1]) 5 initState =
        (Except.error (), initState) :=
  ⟨Or.inr ⟨[1], rfl, rfl⟩,
   C6_failed_refresh_keeps_state tarOpenFail (Except.ok [1]) 5 initState
     (Or.inr ⟨[1], rfl, rfl⟩)⟩

/-- C9: a fetch that succeeds with a zero-length body makes
`download_and_parse_archive` raise before any parsing (the result does not
depend on `tarOpen` at all), and the corpus and both timestamps are returned
unchanged. -/
theorem C9_empty_body_rejected
    (tarOpen : List Nat → Except Unit (List TarMember)) (now : Nat)
    (s : BotState) :
    refresh tarOpen (Except.ok []) now s = (Except.error (), s) := rfl

/-! ## C8: timestamp discipline across refresh cycles -/

theorem refresh_of_cycleOk_false (tarOpen : List Nat → Except Unit (List TarMember))
    (e : RefreshEvent) (s : BotState) (h : cycleOk tarOpen e = false) :
    refresh tarOpen e.fetch e.now s = (Except.error (), s) := by
  obtain ⟨fetch, now⟩ := e
  cases fetch with
  | error u => rfl
  | ok bs =>
    simp only [refresh]
    by_cases hbs : bs.isEmpty = true
    · rw [if_pos hbs]
    · rw [if_neg hbs]
      cases hh : tarOpen bs with
      | error u => rfl
      | ok members =>
        exfalso
        have hbse : bs.isEmpty = false := by
          cases hbse : bs.isEmpty
          · rfl
          · exact absurd hbse hbs
        have hcalc : cycleOk tarOpen ⟨Except.ok bs, now⟩ = true := by
          simp only [cycleOk]
          rw [hh, hbse]
          rfl
        rw [hcalc] at h
        exact absurd h (by simp)

theorem refresh_snd_of_cycleOk_true (tarOpen : List Nat → Except Unit (List TarMember))
    (e : RefreshEvent) (s : BotState) (h : cycleOk tarOpen e = true) :
    ((refresh tarOpen e.fetch e.now s).2).last_update_time = some e.now
    ∧ ((refresh tarOpen e.fetch e.now s).2).initial_load_time
        = some (s.initial_load_time.getD e.now) := by
  obtain ⟨fetch, now⟩ := e
  cases fetch with
  | error u => simp [cycleOk] at h
  | ok bs =>
    simp only [cycleOk, Bool.and_eq_true, Bool.not_eq_true'] at h
    obtain ⟨hbs, hok⟩ := h
    simp only [refresh]
    rw [if_neg (by rw [hbs]; simp)]
    cases hh : tarOpen bs with
    | error u => rw [hh] at hok; simp [Except.toBool] at hok
    | ok members => exact ⟨rfl, rfl⟩

theorem refresh_initial_preserved (tarOpen : List Nat → Except Unit (List TarMember))
    (fetch : Except Unit (List Nat)) (now : Nat) (s : BotState) (a : Nat)
    (h : s.initial_load_time = some a) :
    ((refresh tarOpen fetch now s).2).initial_load_time = some a := by
  cases fetch with
  | error u => exact h
  | ok bs =>
    simp only [refresh]
    by_cases hbs : bs.isEmpty = true
    · rw [if_pos hbs]; exact h
    · rw [if_neg hbs]
      cases hh : tarOpen bs with
      | error u => exact h
      | ok members => simp [h]

theorem runRefreshes_invariant (tarOpen : List Nat → Except Unit (List TarMember)) :
    ∀ (es : List RefreshEvent) (s : BotState),
      List.Chain' (fun a b => a ≤ b) (es.map RefreshEvent.now) →
      (∀ b, s.last_update_time = some b →
        ∀ t ∈ (es.map RefreshEvent.now).head?, b ≤ t) →
      (s.initial_load_time = none ↔ s.last_update_time = none) →
      (∀ a b, s.initial_load_time = some a → s.last_update_time = some b → a ≤ b) →
      ((runRefreshes tarOpen es s).initial_load_time = none
          ↔ (s.initial_load_time = none ∧ ∀ e ∈ es, cycleOk tarOpen e = false))
      ∧ ((runRefreshes tarOpen es s).initial_load_time = none
          ↔ (runRefreshes tarOpen es s).last_update_time = none)
      ∧ (∀ a b, (runRefreshes tarOpen es s).initial_load_time = some a →
          (runRefreshes tarOpen es s).last_update_time = some b → a ≤ b) := by
  intro es
  induction es with
  | nil =>
    intro s _ _ hiff hord
    exact ⟨by simp [runRefreshes], hiff, hord⟩
  | cons e rest ih =>
    intro s hchain hbound hiff hord
    rw [List.map_cons, List.chain'_cons'] at hchain
    obtain ⟨hheadrel, hchain'⟩ := hchain
    have hrun : runRefreshes tarOpen (e :: rest) s =
        runRefreshes tarOpen rest ((refresh tarOpen e.fetch e.now s).2) := rfl
    rw [hrun]
    cases hok : cycleOk tarOpen e with
    | false =>
      rw [show (refresh tarOpen e.fetch e.now s).2 = s from
        congrArg Prod.snd (refresh_of_cycleOk_false tarOpen e s hok)]
      have hbound' : ∀ b, s.last_update_time = some b →
          ∀ t ∈ (rest.map RefreshEvent.now).head?, b ≤ t := by
        intro b hb t ht
        exact le_trans (hbound b hb e.now (by simp)) (hheadrel t ht)
      have hrec := ih s hchain' hbound' hiff hord
      refine ⟨?_, hrec.2.1, hrec.2.2⟩
      rw [hrec.1]
      constructor
      · rintro ⟨h1, h2⟩
        refine ⟨h1, fun e' he' => ?_⟩
        rcases List.mem_cons.mp he' with rfl | hm
        · exact hok
        · exact h2 e' hm
      · rintro ⟨h1, h2⟩
        exact ⟨h1, fun e' he' => h2 e' (List.mem_cons_of_mem _ he')⟩
    | true =>
      obtain ⟨hlast, hinit⟩ := refresh_snd_of_cycleOk_true tarOpen e s hok
      have hbound' : ∀ b, ((refresh tarOpen e.fetch e.now s).2).last_update_time
          = some b → ∀ t ∈ (rest.map RefreshEvent.now).head?, b ≤ t := by
        intro b hb t ht
        rw [hlast] at hb
        obtain rfl : e.now = b := Option.some.inj hb
        exact hheadrel t ht
      have hiff' : ((refresh tarOpen e.fetch e.now s).2).initial_load_time = none
          ↔ ((refresh tarOpen e.fetch e.now s).2).last_update_time = none := by
        rw [hlast, hinit]
        simp
      have hord' : ∀ a b,
          ((refresh tarOpen e.fetch e.now s).2).initial_load_time = some a →
          ((refresh tarOpen e.fetch e.now s).2).last_update_time = some b →
          a ≤ b := by
        intro a b ha hb
        rw [hinit] at ha
        rw [hlast] at hb
        obtain rfl : s.initial_load_time.getD e.now = a := Option.some.inj ha
        obtain rfl : e.now = b := Option.some.inj hb
        cases hB : s.initial_load_time with
        | none => exact Nat.le_refl _
        | some a0 =>
          show a0 ≤ e.now
          have hlastS : ∃ b0, s.last_update_time = some b0 := by
            cases hC : s.last_update_time with
            | none =>
              have hcontr := hiff.mpr hC
              rw [hB] at hcontr
              exact absurd hcontr (by simp)
            | some b0 => exact ⟨b0, rfl⟩
          obtain ⟨b0, hb0⟩ := hlastS
          have h1 : a0 ≤ b0 := hord a0 b0 hB hb0
          have h2 : b0 ≤ e.now := hbound b0 hb0 e.now (by simp)
          exact le_trans h1 h2
      have hrec := ih _ hchain' hbound' hiff' hord'
      refine ⟨?_, hrec.2.1, hrec.2.2⟩
      rw [hrec.1]
      constructor
      · rintro ⟨h1, _⟩
        rw [hinit] at h1
        exact absurd h1 (by simp)
      · rintro ⟨_, hall⟩
        have := hall e (List.mem_cons_self _ _)
        rw [hok] at this
        exact absurd this (by simp)

/-- C8: over any sequence of refresh cycles with nondecreasing wall-clock
times, starting from the unloaded initial state: `initial_load_time`
(loadedAt) is unset iff no cycle has succeeded, it is unset iff
`last_update_time` (updatedAt) is unset, and whenever both are set,
loadedAt ≤ updatedAt.  Moreover each successful cycle sets updatedAt to the
cycle's current time, the first successful cycle sets loadedAt to that same
time, and once set, loadedAt is never overwritten by any later cycle. -/
theorem C8_timestamps (tarOpen : List Nat → Except Unit (List TarMember))
    (es : List RefreshEvent)
    (hchain : List.Chain' (fun a b => a ≤ b) (es.map RefreshEvent.now)) :
    ((runRefreshes tarOpen es initState).initial_load_time = none
        ↔ ∀ e ∈ es, cycleOk tarOpen e = false)
    ∧ ((runRefreshes tarOpen es initState).initial_load_time = none
        ↔ (runRefreshes tarOpen es initState).last_update_time = none)
    ∧ (∀ a b, (runRefreshes tarOpen es initState).initial_load_time = some a →
        (runRefreshes tarOpen es initState).last_update_time = some b → a ≤ b)
    ∧ (∀ e s, cycleOk tarOpen e = true →
        ((refresh tarOpen e.fetch e.now s).2).last_update_time = some e.now)
    ∧ (∀ e s, cycleOk tarOpen e = true → s.initial_load_time = none →
        ((refresh tarOpen e.fetch e.now s).2).initial_load_time = some e.now)
    ∧ (∀ fetch now s a, s.initial_load_time = some a →
        ((refresh tarOpen fetch now s).2).initial_load_time = some a) := by
  have hrun := runRefreshes_invariant tarOpen es initState hchain
    (by intro b hb; simp [initState] at hb) (by simp [initState]) (by simp [initState])
  refine ⟨?_, hrun.2.1, hrun.2.2, ?_, ?_, ?_⟩
  · rw [hrun.1]
    simp [initState]
  · exact fun e s h => (refresh_snd_of_cycleOk_true tarOpen e s h).1
  · intro e s h hnone
    rw [(refresh_snd_of_cycleOk_true tarOpen e s h).2, hnone]
    rfl
  · exact fun fetch now s a h => refresh_initial_preserved tarOpen fetch now s a h

theorem C8_timestamps_witness :
    List.Chain' (fun a b => a ≤ b) ([evA, evB].map RefreshEvent.now)
    ∧ ((runRefreshes tarOpenEmpty [evA, evB] initState).initial_load_time = none
        ↔ (runRefreshes tarOpenEmpty [evA, evB] initState).last_update_time = none) :=
  ⟨by simp [List.chain'_cons', evA, evB],
   (C8_timestamps tarOpenEmpty [evA, evB]
     (by simp [List.chain'_cons', evA, evB])).2.1⟩

/-! ## C7: invalid regex patterns -/

/-- C7: if the pattern fails to compile, `regex_search` reports the
invalid-pattern error to the caller, the result does not depend on the corpus
or the category at all (no scanning happened, no partial results), and the
state is untouched (the function is pure); if it compiles, no error is
reported and the scan result is returned. -/
theorem C7_invalid_pattern (e : List Char) (r : List Char → Bool)
    (uc uc' : Corpus) (category category' : List Char) :
    regex_search (Except.error e) uc category = Except.error e
    ∧ regex_search (Except.error e) uc category
        = regex_search (Except.error e) uc' category'
    ∧ regex_search (Except.ok r) uc category
        = Except.ok (regex_scan r uc category) :=
  ⟨rfl, rfl, rfl⟩

/-! ## C4: substring search characterization -/

theorem listContains_true_iff (needle : List Char) :
    ∀ hay, listContains needle hay = true ↔ needle <:+: hay := by
  intro hay
  induction hay with
  | nil =>
    rw [show listContains needle [] = needle.isEmpty from rfl]
    rw [List.isEmpty_iff, List.infix_nil]
  | cons c rest ih =>
    rw [show listContains needle (c :: rest)
        = (needle.isPrefixOf (c :: rest) || listContains needle rest) from rfl]
    rw [Bool.or_eq_true, ih, List.isPrefixOf_iff_prefix, List.infix_cons_iff]

theorem listContains_eq_decide (needle hay : List Char) :
    listContains needle hay = decide (needle <:+: hay) := by
  cases hc : listContains needle hay
  · symm
    apply decide_eq_false
    intro hcon
    have := (listContains_true_iff needle hay).mpr hcon
    rw [hc] at this
    exact absurd this (by simp)
  · exact (decide_eq_true ((listContains_true_iff needle hay).mp hc)).symm

theorem matching_lines_eq_spec (rawKeyword content : List Char) :
    matching_lines (pyLower rawKeyword) content
      = specMatchingLines rawKeyword content := by
  rw [matching_lines, specMatchingLines]
  congr 1
  apply List.filter_congr
  intro p _
  exact listContains_eq_decide (pyLower rawKeyword) (pyLower p.2)

theorem le_fst_of_mem_enumFrom {α : Type} (l : List α) :
    ∀ (n : Nat) (p : Nat × α), p ∈ List.enumFrom n l → n ≤ p.1 := by
  induction l with
  | nil => simp
  | cons x xs ih =>
    intro n p hp
    rw [List.enumFrom_cons] at hp
    rcases List.mem_cons.mp hp with rfl | hp
    · exact Nat.le_refl n
    · exact Nat.le_of_succ_le (ih (n + 1) p hp)

theorem pairwise_enumFrom {α : Type} (l : List α) :
    ∀ n, List.Pairwise (fun p q : Nat × α => p.1 < q.1) (List.enumFrom n l) := by
  induction l with
  | nil => intro n; simp
  | cons x xs ih =>
    intro n
    rw [List.enumFrom_cons]
    refine List.Pairwise.cons (fun p hp => ?_) (ih (n + 1))
    exact Nat.lt_of_lt_of_le (Nat.lt_succ_self n) (le_fst_of_mem_enumFrom xs (n + 1) p hp)

theorem pairwise_lineNumbers (pr : Nat × List Char → Bool)
    (g : Nat × List Char → List Char) (lines : List (List Char)) :
    List.Pairwise (fun p q : Nat × List Char => p.1 < q.1)
      ((((List.enumFrom 1 lines).filter pr)).map fun p => (p.1, g p)) := by
  rw [List.pairwise_map]
  exact List.Pairwise.sublist (List.filter_sublist _) (pairwise_enumFrom lines 1)

theorem specMatchingLines_pairwise (keyword content : List Char) :
    List.Pairwise (fun p q : Nat × List Char => p.1 < q.1)
      (specMatchingLines keyword content) :=
  pairwise_lineNumbers _ (fun p => pyStrip p.2) (pySplitlines content)

theorem urlHits_cons_skip₁ (f : List Char → List (Nat × List Char))
    (url content : List Char) (rest : List (List Char × List Char))
    (hc : content.isEmpty = true) :
    urlHits f ((url, content) :: rest) = urlHits f rest := by
  rw [urlHits, List.filterMap_cons]
  rw [show (if content.isEmpty then none
      else if (f content).isEmpty then none else some (url, f content)) =
      (none : Option (List Char × List (Nat × List Char))) from by rw [if_pos hc]]
  rfl

theorem urlHits_cons_skip₂ (f : List Char → List (Nat × List Char))
    (url content : List Char) (rest : List (List Char × List Char))
    (hc : ¬ content.isEmpty = true) (hm : (f content).isEmpty = true) :
    urlHits f ((url, content) :: rest) = urlHits f rest := by
  rw [urlHits, List.filterMap_cons]
  rw [show (if content.isEmpty then none
      else if (f content).isEmpty then none else some (url, f content)) =
      (none : Option (List Char × List (Nat × List Char))) from by
    rw [if_neg hc, if_pos hm]]
  rfl

theorem urlHits_cons_keep (f : List Char → List (Nat × List Char))
    (url content : List Char) (rest : List (List Char × List Char))
    (hc : ¬ content.isEmpty = true) (hm : ¬ (f content).isEmpty = true) :
    urlHits f ((url, content) :: rest) = (url, f content) :: urlHits f rest := by
  rw [urlHits, List.filterMap_cons]
  rw [show (if content.isEmpty then none
      else if (f content).isEmpty then none else some (url, f content)) =
      some (url, f content) from by rw [if_neg hc, if_neg hm]]
  rfl

theorem scanUrlsLoop_cons_skip₁ (f : List Char → List (Nat × List Char))
    (cat url content : List Char) (rest : List (List Char × List Char))
    (acc : SearchResult) (hc : content.isEmpty = true) :
    scanUrlsLoop f cat ((url, content) :: rest) acc
      = scanUrlsLoop f cat rest acc := by
  rw [scanUrlsLoop, if_pos hc]

theorem scanUrlsLoop_cons_skip₂ (f : List Char → List (Nat × List Char))
    (cat url content : List Char) (rest : List (List Char × List Char))
    (acc : SearchResult) (hc : ¬ content.isEmpty = true)
    (hm : (f content).isEmpty = true) :
    scanUrlsLoop f cat ((url, content) :: rest) acc
      = scanUrlsLoop f cat rest acc := by
  rw [scanUrlsLoop, if_neg hc]
  simp only [hm, if_true]

theorem scanUrlsLoop_cons_keep (f : List Char → List (Nat × List Char))
    (cat url content : List Char) (rest : List (List Char × List Char))
    (acc : SearchResult) (hc : ¬ content.isEmpty = true)
    (hm : ¬ (f content).isEmpty = true) :
    scanUrlsLoop f cat ((url, content) :: rest) acc
      = scanUrlsLoop f cat rest (nestedInsert cat url (f content) acc) := by
  rw [scanUrlsLoop, if_neg hc]
  simp only [hm, Bool.false_eq_true, if_false]

theorem scanUrlsLoop_present (f : List Char → List (Nat × List Char))
    (cat : List Char) :
    ∀ (urls : List (List Char × List Char)) (R0 : SearchResult)
      (inner : Dict (List (Nat × List Char))),
      cat ∉ dictKeys R0 →
      (urls.map Prod.fst).Nodup →
      (∀ u ∈ urls.map Prod.fst, u ∉ dictKeys inner) →
      scanUrlsLoop f cat urls (R0 ++ [(cat, inner)])
        = R0 ++ [(cat, inner ++ urlHits f urls)] := by
  intro urls
  induction urls with
  | nil =>
    intro R0 inner _ _ _
    rw [show scanUrlsLoop f cat [] (R0 ++ [(cat, inner)]) = R0 ++ [(cat, inner)]
        from rfl]
    rw [show urlHits f [] = [] from rfl, List.append_nil]
  | cons p rest ih =>
    obtain ⟨url, content⟩ := p
    intro R0 inner hR hnd hdisj
    rw [List.map_cons, List.nodup_cons] at hnd
    have hdisj' : ∀ u ∈ rest.map Prod.fst, u ∉ dictKeys inner :=
      fun u hu => hdisj u (List.mem_cons_of_mem _ hu)
    by_cases hc : content.isEmpty = true
    · rw [scanUrlsLoop_cons_skip₁ f cat url content rest _ hc,
        urlHits_cons_skip₁ f url content rest hc]
      exact ih R0 inner hR hnd.2 hdisj'
    · by_cases hm : (f content).isEmpty = true
      · rw [scanUrlsLoop_cons_skip₂ f cat url content rest _ hc hm,
          urlHits_cons_skip₂ f url content rest hc hm]
        exact ih R0 inner hR hnd.2 hdisj'
      · rw [scanUrlsLoop_cons_keep f cat url content rest _ hc hm,
          urlHits_cons_keep f url content rest hc hm,
          nestedInsert_append_last cat url (f content) R0 inner hR,
          dictInsert_of_not_mem url (f content) inner
            (hdisj url (List.mem_cons_self _ _))]
        rw [ih R0 (inner ++ [(url, f content)]) hR hnd.2 ?_]
        · rw [List.append_assoc, List.singleton_append]
        · intro u hu
          rw [dictKeys, List.map_append]
          intro hmem
          rcases List.mem_append.mp hmem with hmem | hmem
          · exact hdisj u (List.mem_cons_of_mem _ hu) hmem
          · rw [show List.map Prod.fst [(url, f content)] = [url] from rfl] at hmem
            rw [List.mem_singleton.mp hmem] at hu
            exact hnd.1 hu

theorem scanUrlsLoop_absent (f : List Char → List (Nat × List Char))
    (cat : List Char) :
    ∀ (urls : List (List Char × List Char)) (R : SearchResult),
      cat ∉ dictKeys R →
      (urls.map Prod.fst).Nodup →
      scanUrlsLoop f cat urls R
        = if (urlHits f urls).isEmpty then R else R ++ [(cat, urlHits f urls)] := by
  intro urls
  induction urls with
  | nil =>
    intro R _ _
    rw [show scanUrlsLoop f cat [] R = R from rfl,
      show urlHits f [] = [] from rfl]
    rfl
  | cons p rest ih =>
    obtain ⟨url, content⟩ := p
    intro R hR hnd
    rw [List.map_cons, List.nodup_cons] at hnd
    by_cases hc : content.isEmpty = true
    · rw [scanUrlsLoop_cons_skip₁ f cat url content rest _ hc,
        urlHits_cons_skip₁ f url content rest hc]
      exact ih R hR hnd.2
    · by_cases hm : (f content).isEmpty = true
      · rw [scanUrlsLoop_cons_skip₂ f cat url content rest _ hc hm,
          urlHits_cons_skip₂ f url content rest hc hm]
        exact ih R hR hnd.2
      · rw [scanUrlsLoop_cons_keep f cat url content rest _ hc hm,
          urlHits_cons_keep f url content rest hc hm,
          nestedInsert_of_not_mem cat url (f content) R hR,
          scanUrlsLoop_present f cat rest R [(url, f content)] hR hnd.2 ?_]
        · rw [List.singleton_append,
            if_neg (by simp)]
        · intro u hu
          rw [show dictKeys [(url, f content)] = [url] from rfl]
          intro hmem
          rw [List.mem_singleton.mp hmem] at hu
          exact hnd.1 hu

theorem search_foldl_characterization (f : List Char → List (Nat × List Char))
    (uc : Corpus) :
    ∀ (cats : List (List Char)) (R : SearchResult),
      cats.Nodup →
      (∀ c ∈ cats, c ∉ dictKeys R) →
      (∀ cat, ((dictGet uc cat []).map Prod.fst).Nodup) →
      cats.foldl (fun acc cat => scanUrlsLoop f cat (dictGet uc cat []) acc) R
        = R ++ cats.filterMap (fun cat =>
            if (urlHits f (dictGet uc cat [])).isEmpty then none
            else some (cat, urlHits f (dictGet uc cat []))) := by
  intro cats
  induction cats with
  | nil =>
    intro R _ _ _
    rw [List.foldl_nil, List.filterMap_nil, List.append_nil]
  | cons c cats ih =>
    intro R hnd hfresh hndu
    rw [List.nodup_cons] at hnd
    rw [List.foldl_cons,
      scanUrlsLoop_absent f c (dictGet uc c []) R
        (hfresh c (List.mem_cons_self _ _)) (hndu c),
      List.filterMap_cons]
    by_cases hE : (urlHits f (dictGet uc c [])).isEmpty = true
    · rw [if_pos hE]
      rw [show (if (urlHits f (dictGet uc c [])).isEmpty then none
          else some (c, urlHits f (dictGet uc c []))) =
          (none : Option (List Char × Dict (List (Nat × List Char)))) from by
        rw [if_pos hE]]
      exact ih R hnd.2 (fun c' hc' => hfresh c' (List.mem_cons_of_mem _ hc')) hndu
    · rw [if_neg hE]
      rw [show (if (urlHits f (dictGet uc c [])).isEmpty then none
          else some (c, urlHits f (dictGet uc c []))) =
          some (c, urlHits f (dictGet uc c [])) from by rw [if_neg hE]]
      rw [ih (R ++ [(c, urlHits f (dictGet uc c []))]) hnd.2 ?_ hndu]
      · rw [List.append_assoc, List.singleton_append]
      · intro c' hc'
        rw [dictKeys, List.map_append]
        intro hmem
        rcases List.mem_append.mp hmem with hmem | hmem
        · exact hfresh c' (List.mem_cons_of_mem _ hc') hmem
        · rw [show List.map Prod.fst [(c, urlHits f (dictGet uc c []))] = [c]
            from rfl] at hmem
          rw [List.mem_singleton.mp hmem] at hc'
          exact hnd.1 hc'

theorem categoriesToSearch_nodup (category : List Char) :
    (categoriesToSearch category).Nodup := by
  rw [categoriesToSearch]
  split_ifs
  · decide
  · simp

theorem urlHits_eq_spec (rawKeyword : List Char)
    (urls : List (List Char × List Char)) :
    urlHits (matching_lines (pyLower rawKeyword)) urls
      = urls.filterMap (fun p =>
          if (specMatchingLines rawKeyword p.2).isEmpty then none
          else some (p.1, specMatchingLines rawKeyword p.2)) := by
  rw [urlHits]
  congr 1
  funext p
  by_cases hc : p.2.isEmpty = true
  · rw [if_pos hc]
    have hnil : p.2 = [] := List.isEmpty_iff.mp hc
    rw [show specMatchingLines rawKeyword p.2 = [] from by rw [hnil]; rfl]
    rfl
  · rw [if_neg hc, matching_lines_eq_spec]

/-- C4: for every corpus snapshot (with the per-category URL keys distinct,
as Python dicts guarantee), category selection, and non-empty keyword,
substring search equals the spec-side comprehension `specSearch` — per
selected category and per sourceURL, exactly the lines whose lowercased text
contains the lowercased keyword as a substring, recorded as (1-based line
number, whitespace-trimmed text); and in every returned entry the match list
is non-empty (a URL with zero matching lines contributes no entry) and
strictly ascending in line number. -/
theorem C4_substring_search (uc : Corpus) (category rawKeyword : List Char)
    (hkw : rawKeyword ≠ [])
    (hnd : ∀ cat, ((dictGet uc cat []).map Prod.fst).Nodup) :
    search uc category rawKeyword = specSearch uc category rawKeyword
    ∧ ∀ cat urls, (cat, urls) ∈ search uc category rawKeyword →
        ∀ url ms, (url, ms) ∈ urls →
          ms ≠ []
          ∧ List.Pairwise (fun p q : Nat × List Char => p.1 < q.1) ms := by
  have hmain : search uc category rawKeyword = specSearch uc category rawKeyword := by
    rw [search, specSearch,
      search_foldl_characterization (matching_lines (pyLower rawKeyword)) uc
        (categoriesToSearch category) [] (categoriesToSearch_nodup category)
        (by intro c _; rw [show dictKeys ([] : SearchResult) = [] from rfl]; simp)
        hnd,
      List.nil_append]
    congr 1
    funext cat
    rw [urlHits_eq_spec]
  refine ⟨hmain, ?_⟩
  intro cat urls hcaturls url ms hurlms
  rw [hmain, specSearch] at hcaturls
  obtain ⟨c, _, heq⟩ := List.mem_filterMap.mp hcaturls
  by_cases hE : ((dictGet uc c []).filterMap (fun p =>
      if (specMatchingLines rawKeyword p.2).isEmpty then none
      else some (p.1, specMatchingLines rawKeyword p.2))).isEmpty = true
  · rw [show (if ((dictGet uc c []).filterMap fun p =>
        if (specMatchingLines rawKeyword p.2).isEmpty then none
        else some (p.1, specMatchingLines rawKeyword p.2)).isEmpty = true then none
        else some (c, (dictGet uc c []).filterMap fun p =>
          if (specMatchingLines rawKeyword p.2).isEmpty then none
          else some (p.1, specMatchingLines rawKeyword p.2))) =
        (none : Option (List Char × Dict (List (Nat × List Char)))) from by
      rw [if_pos hE]] at heq
    exact absurd heq (by simp)
  · rw [show (if ((dictGet uc c []).filterMap fun p =>
        if (specMatchingLines rawKeyword p.2).isEmpty then none
        else some (p.1, specMatchingLines rawKeyword p.2)).isEmpty = true then none
        else some (c, (dictGet uc c []).filterMap fun p =>
          if (specMatchingLines rawKeyword p.2).isEmpty then none
          else some (p.1, specMatchingLines rawKeyword p.2))) =
        some (c, (dictGet uc c []).filterMap fun p =>
          if (specMatchingLines rawKeyword p.2).isEmpty then none
          else some (p.1, specMatchingLines rawKeyword p.2)) from by
      rw [if_neg hE]] at heq
    obtain ⟨rfl, rfl⟩ : c = cat ∧ ((dictGet uc c []).filterMap fun p =>
        if (specMatchingLines rawKeyword p.2).isEmpty then none
        else some (p.1, specMatchingLines rawKeyword p.2)) = urls := by
      have := Option.some.inj heq
      exact ⟨congrArg Prod.fst this, congrArg Prod.snd this⟩
    obtain ⟨p, _, hpeq⟩ := List.mem_filterMap.mp hurlms
    by_cases hpe : (specMatchingLines rawKeyword p.2).isEmpty = true
    · rw [if_pos hpe] at hpeq
      exact absurd hpeq (by simp)
    · rw [if_neg hpe] at hpeq
      obtain ⟨rfl, rfl⟩ : p.1 = url ∧ specMatchingLines rawKeyword p.2 = ms := by
        have := Option.some.inj hpeq
        exact ⟨congrArg Prod.fst this, congrArg Prod.snd this⟩
      refine ⟨?_, specMatchingLines_pairwise rawKeyword p.2⟩
      intro hnil
      rw [hnil] at hpe
      exact hpe rfl

theorem C4_substring_search_witness :
    (toL "FOO" ≠ [])
    ∧ (∀ cat, ((dictGet demoCorpus cat []).map Prod.fst).Nodup)
    ∧ search demoCorpus (toL "all") (toL "FOO")
        = specSearch demoCorpus (toL "all") (toL "FOO") :=
  ⟨by decide,
   fun cat => by
     rw [demoCorpus, dictGet]
     split_ifs
     · decide
     · rw [show dictGet ([] : Corpus) cat [] = [] from rfl]
       simp,
   (C4_substring_search demoCorpus (toL "all") (toL "FOO") (by decide)
     (fun cat => by
       rw [demoCorpus, dictGet]
       split_ifs
       · decide
       · rw [show dictGet ([] : Corpus) cat [] = [] from rfl]
         simp)).1⟩

end Bot
